import Mathlib

/-!
Shallow embedding of `src/seller.py`: the data-reconciliation pipeline of a
stock/price synchronizer (catalog pagination, record transformation with
stock bucketing and price normalization, zero-filling of unmatched offers,
batch chunking, and the data flow of the orchestrator).

Network calls, file download and environment configuration are external
collaborators; they are modeled by passing their results (pages of the
catalog, the list of inventory records) as explicit inputs.  In-place
mutation of the `offer_ids` Python list by `create_stocks` is modeled by
state passing: the function returns the remaining list alongside its result.
-/

namespace Seller

instance {ε α : Type} [DecidableEq ε] [DecidableEq α] : DecidableEq (Except ε α) :=
  fun a b =>
    match a, b with
    | .ok x, .ok y =>
      if h : x = y then isTrue (by rw [h]) else isFalse (fun he => h (Except.ok.inj he))
    | .error x, .error y =>
      if h : x = y then isTrue (by rw [h]) else isFalse (fun he => h (Except.error.inj he))
    | .ok _, .error _ => isFalse (fun he => Except.noConfusion he)
    | .error _, .ok _ => isFalse (fun he => Except.noConfusion he)

/-- One raw inventory record (a row of the vendor spreadsheet), with the
code field already stringified (Python applies `str` to it at every use),
the quantity text and the price text. -/
structure Watch where
  code : String
  quantity : String
  price : String
  deriving Repr, DecidableEq

/-- A stock update record `{"offer_id": ..., "stock": ...}`. -/
structure StockRecord where
  offer_id : String
  stock : Int
  deriving Repr, DecidableEq

/-- A price update record with the fixed fields built by `create_prices`. -/
structure PriceRecord where
  auto_action_enabled : String
  currency_code : String
  offer_id : String
  old_price : String
  price : String
  deriving Repr, DecidableEq

/-- Numeric value of a list of ASCII digit characters. -/
def digitsVal (l : List Char) : Nat :=
  l.foldl (fun a c => a * 10 + (c.toNat - 48)) 0

/-- Python `int(s)` on a string: an optional sign followed by at least one
ASCII digit parses to the signed value; anything else raises `ValueError`,
modeled as `none`. -/
def pythonInt? (s : String) : Option Int :=
  match s.data with
  | [] => none
  | c :: rest =>
    if c = '-' then
      if !rest.isEmpty && rest.all Char.isDigit then
        some (-(Int.ofNat (digitsVal rest))) else none
    else if c = '+' then
      if !rest.isEmpty && rest.all Char.isDigit then
        some (Int.ofNat (digitsVal rest)) else none
    else
      if (c :: rest).all Char.isDigit then
        some (Int.ofNat (digitsVal (c :: rest))) else none

/-- The stock bucketing computation inside `create_stocks` (lines 193-199):
quantity text `">10"` gives 100, `"1"` gives 0, anything else is
integer-parsed (`none` models the `ValueError` of `int`). -/
def stockOf (q : String) : Option Int :=
  if q = ">10" then some 100
  else if q = "1" then some 0
  else pythonInt? q

/-- The first loop of `create_stocks` (lines 191-201): walk the inventory
records; a record whose code is in the current offer-id list emits a stock
record and removes that code (first occurrence, as Python `list.remove`).
Returns the emitted records and the remaining offer ids, or the error
raised by `int` on a non-numeric quantity. -/
def matchLoop : List Watch → List String → Except String (List StockRecord × List String)
  | [], offer_ids => .ok ([], offer_ids)
  | w :: ws, offer_ids =>
    if w.code ∈ offer_ids then
      match stockOf w.quantity with
      | none => .error (String.append "invalid literal for int with base 10: " w.quantity)
      | some st =>
        match matchLoop ws (offer_ids.erase w.code) with
        | .error e => .error e
        | .ok (recs, rem) => .ok (⟨w.code, st⟩ :: recs, rem)
    else matchLoop ws offer_ids

/-- `create_stocks` (lines 174-205): the matching loop followed by the
zero-fill loop that appends a stock-0 record for every offer id left in the
(now depleted) list.  The second component is the final state of the
`offer_ids` list of the caller (the zero-fill loop only reads it). -/
def create_stocks (watch_remnants : List Watch) (offer_ids : List String) :
    Except String (List StockRecord × List String) :=
  match matchLoop watch_remnants offer_ids with
  | .error e => .error e
  | .ok (recs, rem) => .ok (recs ++ rem.map (fun i => ⟨i, 0⟩), rem)

/-- `price_conversion` (line 269): `re.sub("[^0-9]", "", price.split(".")[0])`,
i.e. the characters before the first `'.'` with everything but ASCII digits
removed. -/
def price_conversion (price : String) : String :=
  String.mk ((price.data.takeWhile (fun c => c != '.')).filter Char.isDigit)

/-- The wording of the spec for price normalization, phrased independently:
cut the character list at the index of the first `'.'` (the whole string
when there is none), then keep the ASCII digits. -/
def priceConversionSpec (price : String) : String :=
  String.mk ((price.data.take (price.data.indexOf '.')).filter Char.isDigit)

/-- `create_prices` (lines 208-243): one price record per inventory record
whose code is in the offer-id list; the list is not mutated here. -/
def create_prices (watch_remnants : List Watch) (offer_ids : List String) :
    List PriceRecord :=
  watch_remnants.filterMap (fun w =>
    if w.code ∈ offer_ids then
      some ⟨"UNKNOWN", "RUB", w.code, "0", price_conversion w.price⟩
    else none)

/-- One page of the catalog listing response: the offer ids of its items and
the total the API reports alongside. -/
structure Page where
  items : List String
  total : Nat
  deriving Repr, DecidableEq

/-- The accumulation loop of `get_offer_ids` (lines 63-69): extend the
accumulated items with each page, stop as soon as the reported total equals
the accumulated count.  Running out of pages models a session in which the
loop never hits its break. -/
def getOfferIdsGo : List Page → List String → Option (List String)
  | [], _ => none
  | p :: ps, acc =>
    if p.total = (acc ++ p.items).length then some (acc ++ p.items)
    else getOfferIdsGo ps (acc ++ p.items)

/-- `get_offer_ids` (lines 47-73) over a given sequence of API pages. -/
def get_offer_ids (pages : List Page) : Option (List String) :=
  getOfferIdsGo pages []

/-- Chunks of size `n+1` with structural fuel: the slices `lst[i : i+n]`
taken at `i = 0, n, 2n, ...` by the generator in `divide`.  Each step
consumes at least one element, so fuel `lst.length` is enough. -/
def chunksFuel : Nat → List α → Nat → List (List α)
  | 0, _, _ => []
  | _, [], _ => []
  | fuel + 1, a :: l, n => (a :: l).take (n + 1) :: chunksFuel fuel ((a :: l).drop (n + 1)) n

/-- Chunks of size `n+1` of a list. -/
def chunksGo (l : List α) (n : Nat) : List (List α) :=
  chunksFuel l.length l n

/-- `divide` (lines 272-286): `for i in range(0, len(lst), n): yield lst[i:i+n]`.
Python `range` raises `ValueError` on step 0 (when the generator is
consumed); a negative step with the bounds `0, len(lst)` yields nothing. -/
def divide (lst : List α) (n : Int) : Except String (List (List α)) :=
  if n = 0 then .error "range arg 3 must not be zero"
  else if n < 0 then .ok []
  else .ok (chunksGo lst (n.toNat - 1))

/-- `upload_stocks` (lines 311-330): fetch a fresh offer-id list, build the
stock records, and return `(not_empty, stocks)` where `not_empty` filters
out the zero-stock records.  The chunked network pushes have no effect on
the returned value. -/
def upload_stocks (pages : List Page) (watch_remnants : List Watch) :
    Option (Except String (List StockRecord × List StockRecord)) :=
  (get_offer_ids pages).map (fun offer_ids =>
    match create_stocks watch_remnants offer_ids with
    | .error e => .error e
    | .ok (stocks, _) => .ok (stocks.filter (fun s => s.stock != 0), stocks))

/-- The data flow of `main` (lines 333-353): one offer-id fetch, then
`create_stocks` on it, then `create_prices` on the SAME list object — which
`create_stocks` has depleted in place, modeled by passing the remaining
list to `create_prices`. -/
def mainRun (pages : List Page) (watch_remnants : List Watch) :
    Option (Except String (List StockRecord × List PriceRecord)) :=
  (get_offer_ids pages).map (fun offer_ids =>
    match create_stocks watch_remnants offer_ids with
    | .error e => .error e
    | .ok (stocks, remaining) =>
      .ok (stocks, create_prices watch_remnants remaining))

/-- The items accumulated from a prefix of the page sequence, in order. -/
def accumItems (ps : List Page) : List String :=
  (ps.map Page.items).flatten

/-! ## Helper lemmas -/

theorem take_indexOf_eq_takeWhile (l : List Char) :
    l.take (l.indexOf '.') = l.takeWhile (fun c => c != '.') := by
  induction l with
  | nil => rfl
  | cons c t ih =>
    rw [List.indexOf_cons, List.takeWhile_cons]
    by_cases h : c = '.'
    · have hb : (c == '.') = true := by simp [h]
      simp [hb, h]
    · have hb : (c == '.') = false := by simp [h]
      simp [hb, h, ih]

theorem chunksFuel_nil (fuel n : Nat) : chunksFuel fuel ([] : List α) n = [] := by
  cases fuel <;> rfl

theorem chunksFuel_flatten :
    ∀ (fuel : Nat) (l : List α) (n : Nat), l.length ≤ fuel →
      (chunksFuel fuel l n).flatten = l := by
  intro fuel
  induction fuel with
  | zero =>
    intro l n h
    have hl : l = [] := List.length_eq_zero.mp (Nat.le_zero.mp h)
    subst hl; rfl
  | succ f ih =>
    intro l n h
    match l with
    | [] => rfl
    | a :: t =>
      show (((a :: t).take (n + 1)) :: chunksFuel f ((a :: t).drop (n + 1)) n).flatten = a :: t
      have hf : ((a :: t).drop (n + 1)).length ≤ f := by
        simp only [List.length_drop, List.length_cons]
        simp only [List.length_cons] at h
        omega
      rw [List.flatten_cons, ih _ n hf, List.take_append_drop]

theorem chunksFuel_mem :
    ∀ (fuel : Nat) (l : List α) (n : Nat), l.length ≤ fuel →
      ∀ c ∈ chunksFuel fuel l n, c ≠ [] ∧ c.length ≤ n + 1 := by
  intro fuel
  induction fuel with
  | zero =>
    intro l n h c hc
    have hl : l = [] := List.length_eq_zero.mp (Nat.le_zero.mp h)
    subst hl; simp [chunksFuel] at hc
  | succ f ih =>
    intro l n h c hc
    match l with
    | [] => simp [chunksFuel] at hc
    | a :: t =>
      simp only [chunksFuel, List.mem_cons] at hc
      rcases hc with hc | hc
      · subst hc
        constructor
        · simp
        · simp only [List.length_take]
          omega
      · have hf : ((a :: t).drop (n + 1)).length ≤ f := by
          simp only [List.length_drop, List.length_cons]
          simp only [List.length_cons] at h
          omega
        exact ih _ n hf c hc

theorem chunksFuel_full :
    ∀ (fuel : Nat) (l : List α) (n : Nat), l.length ≤ fuel →
      ∀ i, i + 1 < (chunksFuel fuel l n).length →
        ((chunksFuel fuel l n).getD i []).length = n + 1 := by
  intro fuel
  induction fuel with
  | zero =>
    intro l n h i hi
    have hl : l = [] := List.length_eq_zero.mp (Nat.le_zero.mp h)
    subst hl; simp [chunksFuel] at hi
  | succ f ih =>
    intro l n h i hi
    match l with
    | [] => simp [chunksFuel] at hi
    | a :: t =>
      simp only [chunksFuel] at hi ⊢
      have hf : ((a :: t).drop (n + 1)).length ≤ f := by
        simp only [List.length_drop, List.length_cons]
        simp only [List.length_cons] at h
        omega
      match i with
      | 0 =>
        rw [List.getD_cons_zero]
        have hne : chunksFuel f ((a :: t).drop (n + 1)) n ≠ [] := by
          intro he
          rw [he] at hi
          simp at hi
        have hdrop : (a :: t).drop (n + 1) ≠ [] := by
          intro he
          rw [he, chunksFuel_nil] at hne
          exact hne rfl
        have hlen : n + 1 < (a :: t).length := by
          by_contra hle
          push_neg at hle
          exact hdrop (List.drop_eq_nil_of_le hle)
        simp only [List.length_take, List.length_cons]
        simp only [List.length_cons] at hlen
        omega
      | j + 1 =>
        rw [List.getD_cons_succ]
        have hij : j + 1 < (chunksFuel f ((a :: t).drop (n + 1)) n).length := by
          simp only [List.length_cons] at hi
          omega
        exact ih ((a :: t).drop (n + 1)) n hf j hij

theorem chunksFuel_singletons :
    ∀ (fuel : Nat) (l : List α), l.length ≤ fuel →
      chunksFuel fuel l 0 = l.map (fun x => [x]) := by
  intro fuel
  induction fuel with
  | zero =>
    intro l h
    have hl : l = [] := List.length_eq_zero.mp (Nat.le_zero.mp h)
    subst hl; rfl
  | succ f ih =>
    intro l h
    match l with
    | [] => rfl
    | a :: t =>
      show (a :: t).take 1 :: chunksFuel f ((a :: t).drop 1) 0 = _
      rw [show (a :: t).take 1 = [a] from rfl, show (a :: t).drop 1 = t from rfl,
        ih t (by simpa using Nat.le_of_succ_le_succ h)]
      rfl

/-! ## Claim theorems -/

/-- C3: for every input string, `price_conversion` returns the substring
before the first dot with every non-ASCII-digit character removed, and in
particular maps "5990.00 руб" to "5990", "199.99" to "199" and "руб" to
the empty string. -/
theorem price_conversion_spec_correct :
    (∀ s : String, price_conversion s = priceConversionSpec s) ∧
    price_conversion "5990.00 руб" = "5990" ∧
    price_conversion "199.99" = "199" ∧
    price_conversion "руб" = "" := by
  refine ⟨fun s => ?_, by decide, by decide, by decide⟩
  unfold price_conversion priceConversionSpec
  rw [take_indexOf_eq_takeWhile]

set_option maxRecDepth 8000 in
/-- C6: for every list and every chunk size at least 1, `divide` succeeds
with chunks of exactly that size except possibly a shorter (nonempty) last
one, whose concatenation restores the list; the empty list gives no chunk,
size 1 gives singletons, and [1..250] in chunks of 100 gives
[1..100], [101..200], [201..250]. -/
theorem divide_chunk_spec :
    (∀ (α : Type) (l : List α) (n : Int), 1 ≤ n →
      divide l n = .ok (chunksGo l (n.toNat - 1)) ∧
      (chunksGo l (n.toNat - 1)).flatten = l ∧
      (∀ c ∈ chunksGo l (n.toNat - 1), c ≠ [] ∧ c.length ≤ n.toNat) ∧
      (∀ i, i + 1 < (chunksGo l (n.toNat - 1)).length →
        ((chunksGo l (n.toNat - 1)).getD i []).length = n.toNat)) ∧
    (∀ n : Int, 1 ≤ n → divide ([] : List Nat) n = .ok []) ∧
    (∀ l : List Nat, divide l 1 = .ok (l.map (fun x => [x]))) ∧
    divide (List.range' 1 250) (100 : Int) =
      .ok [List.range' 1 100, List.range' 101 100, List.range' 201 50] := by
  have hdiv : ∀ (α : Type) (l : List α) (n : Int), 1 ≤ n →
      divide l n = .ok (chunksGo l (n.toNat - 1)) := by
    intro α l n hn
    unfold divide
    rw [if_neg (by omega), if_neg (by omega)]
  refine ⟨fun α l n hn => ?_, fun n hn => ?_, fun l => ?_, by decide⟩
  · have hsz : n.toNat - 1 + 1 = n.toNat := by omega
    refine ⟨hdiv α l n hn, ?_, ?_, ?_⟩
    · exact chunksFuel_flatten _ _ _ le_rfl
    · intro c hc
      have := chunksFuel_mem l.length l (n.toNat - 1) le_rfl c hc
      rw [hsz] at this
      exact this
    · intro i hi
      have := chunksFuel_full l.length l (n.toNat - 1) le_rfl i hi
      rw [hsz] at this
      exact this
  · rw [hdiv Nat [] n hn]
    rfl
  · rw [hdiv Nat l 1 (by omega)]
    show Except.ok (chunksGo l 0) = _
    unfold chunksGo
    rw [chunksFuel_singletons l.length l le_rfl]

/-- Unfolding of the matching loop on a record whose code is in the
offer-id list. -/
theorem matchLoop_cons_mem (w : Watch) (ws : List Watch) (ids : List String)
    (h : w.code ∈ ids) :
    matchLoop (w :: ws) ids =
      match stockOf w.quantity with
      | none => .error (String.append "invalid literal for int with base 10: " w.quantity)
      | some st =>
        match matchLoop ws (ids.erase w.code) with
        | .error e => .error e
        | .ok (recs, rem) => .ok (⟨w.code, st⟩ :: recs, rem) := by
  simp only [matchLoop]
  rw [if_pos h]

/-- Unfolding of the matching loop on a record whose code is not in the
offer-id list. -/
theorem matchLoop_cons_not_mem (w : Watch) (ws : List Watch) (ids : List String)
    (h : w.code ∉ ids) :
    matchLoop (w :: ws) ids = matchLoop ws ids := by
  simp only [matchLoop]
  rw [if_neg h]

/-- A successful run of `create_stocks` comes from a successful matching
loop, followed by the zero-fill of the remaining offer ids. -/
theorem create_stocks_ok_inversion (ws : List Watch) (ids : List String)
    (stocks : List StockRecord) (rem : List String)
    (h : create_stocks ws ids = .ok (stocks, rem)) :
    ∃ recs, matchLoop ws ids = .ok (recs, rem) ∧
      stocks = recs ++ rem.map (fun i => ⟨i, 0⟩) := by
  unfold create_stocks at h
  cases hr : matchLoop ws ids with
  | error e =>
    rw [hr] at h
    simp at h
  | ok pr =>
    obtain ⟨recs, rem2⟩ := pr
    rw [hr] at h
    simp only [Except.ok.injEq, Prod.mk.injEq] at h
    obtain ⟨h1, h2⟩ := h
    subst h2
    exact ⟨recs, rfl, h1.symm⟩

/-- The remaining offer ids of the matching loop are among the input ids. -/
theorem matchLoop_rem_subset :
    ∀ (ws : List Watch) (ids : List String) (recs : List StockRecord)
      (rem : List String), matchLoop ws ids = .ok (recs, rem) → rem ⊆ ids := by
  intro ws
  induction ws with
  | nil =>
    intro ids recs rem h
    simp only [matchLoop, Except.ok.injEq, Prod.mk.injEq] at h
    obtain ⟨h1, h2⟩ := h
    subst h2
    exact fun x hx => hx
  | cons w ws ih =>
    intro ids recs rem h
    by_cases hm : w.code ∈ ids
    · rw [matchLoop_cons_mem w ws ids hm] at h
      cases hs : stockOf w.quantity with
      | none =>
        rw [hs] at h
        simp at h
      | some st =>
        rw [hs] at h
        cases hr : matchLoop ws (ids.erase w.code) with
        | error e =>
          rw [hr] at h
          simp at h
        | ok pr =>
          obtain ⟨recs2, rem2⟩ := pr
          rw [hr] at h
          simp only [Except.ok.injEq, Prod.mk.injEq] at h
          obtain ⟨h1, h2⟩ := h
          subst h2
          exact fun x hx => List.erase_subset _ _ (ih _ _ _ hr hx)
    · rw [matchLoop_cons_not_mem w ws ids hm] at h
      exact ih _ _ _ h

/-- With no duplicate offer ids, the matching loop leaves exactly the ids
matched by no inventory record, in their original order. -/
theorem matchLoop_rem_filter :
    ∀ (ws : List Watch) (ids : List String) (recs : List StockRecord)
      (rem : List String), ids.Nodup → matchLoop ws ids = .ok (recs, rem) →
      rem = ids.filter (fun i => ws.all (fun w => w.code != i)) := by
  intro ws
  induction ws with
  | nil =>
    intro ids recs rem _ h
    simp only [matchLoop, Except.ok.injEq, Prod.mk.injEq] at h
    obtain ⟨h1, h2⟩ := h
    subst h2
    simp
  | cons w ws ih =>
    intro ids recs rem hnd h
    by_cases hm : w.code ∈ ids
    · rw [matchLoop_cons_mem w ws ids hm] at h
      cases hs : stockOf w.quantity with
      | none =>
        rw [hs] at h
        simp at h
      | some st =>
        rw [hs] at h
        cases hr : matchLoop ws (ids.erase w.code) with
        | error e =>
          rw [hr] at h
          simp at h
        | ok pr =>
          obtain ⟨recs2, rem2⟩ := pr
          rw [hr] at h
          simp only [Except.ok.injEq, Prod.mk.injEq] at h
          obtain ⟨h1, h2⟩ := h
          subst h2
          have ihr := ih _ _ _ (hnd.erase w.code) hr
          rw [hnd.erase_eq_filter w.code, List.filter_filter] at ihr
          rw [ihr]
          apply List.filter_congr
          intro i hi
          by_cases he : w.code = i
          · subst he
            simp [List.all_cons]
          · have h1 : (i != w.code) = true := by
              simp only [bne_iff_ne, ne_eq]
              exact fun e => he e.symm
            have h2 : (w.code != i) = true := by
              simp only [bne_iff_ne, ne_eq]
              exact he
            simp [List.all_cons, h1, h2]
    · rw [matchLoop_cons_not_mem w ws ids hm] at h
      rw [ih _ _ _ hnd h]
      apply List.filter_congr
      intro i hi
      have h2 : (w.code != i) = true := by
        simp only [bne_iff_ne, ne_eq]
        exact fun e => hm (e ▸ hi)
      simp [List.all_cons, h2]

/-- Every record emitted by the matching loop takes its stock from the
bucketing of the quantity text of some inventory record with its code. -/
theorem matchLoop_stock_from :
    ∀ (ws : List Watch) (ids : List String) (recs : List StockRecord)
      (rem : List String), matchLoop ws ids = .ok (recs, rem) →
      ∀ r ∈ recs, ∃ w ∈ ws, stockOf w.quantity = some r.stock ∧ w.code = r.offer_id := by
  intro ws
  induction ws with
  | nil =>
    intro ids recs rem h r hr
    simp only [matchLoop, Except.ok.injEq, Prod.mk.injEq] at h
    obtain ⟨h1, h2⟩ := h
    rw [← h1] at hr
    simp at hr
  | cons w ws ih =>
    intro ids recs rem h r hr
    by_cases hm : w.code ∈ ids
    · rw [matchLoop_cons_mem w ws ids hm] at h
      cases hs : stockOf w.quantity with
      | none =>
        rw [hs] at h
        simp at h
      | some st =>
        rw [hs] at h
        cases hmr : matchLoop ws (ids.erase w.code) with
        | error e =>
          rw [hmr] at h
          simp at h
        | ok pr =>
          obtain ⟨recs2, rem2⟩ := pr
          rw [hmr] at h
          simp only [Except.ok.injEq, Prod.mk.injEq] at h
          obtain ⟨h1, h2⟩ := h
          rw [← h1] at hr
          rcases List.mem_cons.mp hr with hr | hr
          · subst hr
            exact ⟨w, List.mem_cons_self w ws, hs, rfl⟩
          · obtain ⟨w2, hw2, hsw2⟩ := ih _ _ _ hmr r hr
            exact ⟨w2, List.mem_cons_of_mem w hw2, hsw2⟩
    · rw [matchLoop_cons_not_mem w ws ids hm] at h
      obtain ⟨w2, hw2, hsw2⟩ := ih _ _ _ h r hr
      exact ⟨w2, List.mem_cons_of_mem w hw2, hsw2⟩

/-- With no duplicate offer ids the matching loop emits records with
pairwise distinct codes, each drawn from the input ids and absent from the
remaining ids. -/
theorem matchLoop_codes :
    ∀ (ws : List Watch) (ids : List String) (recs : List StockRecord)
      (rem : List String), ids.Nodup → matchLoop ws ids = .ok (recs, rem) →
      (recs.map StockRecord.offer_id).Nodup ∧
      ∀ r ∈ recs, r.offer_id ∈ ids ∧ r.offer_id ∉ rem := by
  intro ws
  induction ws with
  | nil =>
    intro ids recs rem _ h
    simp only [matchLoop, Except.ok.injEq, Prod.mk.injEq] at h
    obtain ⟨h1, h2⟩ := h
    rw [← h1]
    constructor
    · simp
    · intro r hr
      simp at hr
  | cons w ws ih =>
    intro ids recs rem hnd h
    by_cases hm : w.code ∈ ids
    · rw [matchLoop_cons_mem w ws ids hm] at h
      cases hs : stockOf w.quantity with
      | none =>
        rw [hs] at h
        simp at h
      | some st =>
        rw [hs] at h
        cases hmr : matchLoop ws (ids.erase w.code) with
        | error e =>
          rw [hmr] at h
          simp at h
        | ok pr =>
          obtain ⟨recs2, rem2⟩ := pr
          rw [hmr] at h
          simp only [Except.ok.injEq, Prod.mk.injEq] at h
          obtain ⟨h1, h2⟩ := h
          subst h2
          obtain ⟨ihn, ihm⟩ := ih _ _ _ (hnd.erase w.code) hmr
          have hrs : rem2 ⊆ ids.erase w.code := matchLoop_rem_subset _ _ _ _ hmr
          rw [← h1]
          constructor
          · rw [List.map_cons]
            refine List.nodup_cons.mpr ⟨?_, ihn⟩
            intro hin
            obtain ⟨r, hr, hre⟩ := List.mem_map.mp hin
            have := (ihm r hr).1
            rw [hre] at this
            exact hnd.not_mem_erase this
          · intro r hr
            rcases List.mem_cons.mp hr with hr | hr
            · subst hr
              exact ⟨hm, fun hin => hnd.not_mem_erase (hrs hin)⟩
            · obtain ⟨hin, hnin⟩ := ihm r hr
              exact ⟨List.erase_subset _ _ hin, hnin⟩
    · rw [matchLoop_cons_not_mem w ws ids hm] at h
      exact ih _ _ _ hnd h

/-- Witness for C6 at a concrete list and size 2. -/
theorem divide_chunk_spec_witness :
    (1 : Int) ≤ 2 ∧ divide ([10, 20, 30] : List Nat) (2 : Int) =
      Except.ok (chunksGo [10, 20, 30] ((2 : Int).toNat - 1)) :=
  ⟨by decide, (divide_chunk_spec.1 Nat [10, 20, 30] 2 (by decide)).1⟩

/-- C7 counterexample: for a negative size the generator silently yields
nothing — `divide([1], -1)` produces the empty output with no error, so the
claim that every size ≤ 0 fails fast is false as stated. -/
theorem divide_negative_size_silent :
    divide [(1 : Nat)] (-1 : Int) = Except.ok [] := by decide

/-- C7 (amended): `divide` fails with the range step-zero error exactly for
size 0; for every negative size it silently yields the empty sequence of
chunks (the underlying `range(0, len(lst), n)` is empty). -/
theorem divide_nonpositive_size :
    (∀ (α : Type) (l : List α),
      divide l (0 : Int) = .error "range arg 3 must not be zero") ∧
    (∀ (α : Type) (l : List α) (n : Int), n < 0 →
      divide l n = .ok ([] : List (List α))) := by
  constructor
  · intro α l
    rfl
  · intro α l n hn
    unfold divide
    rw [if_neg (by omega), if_pos hn]

/-- Witness for the amended C7 theorem at a concrete negative size. -/
theorem divide_nonpositive_size_witness :
    (-2 : Int) < 0 ∧ divide [true, false] (-2 : Int) = Except.ok [] :=
  ⟨by decide, divide_nonpositive_size.2 Bool [true, false] (-2) (by decide)⟩

/-- C2: a matched inventory record gets its stock from the quantity text:
">10" gives 100, "1" gives 0, any other text its integer parse ("7" parses
to 7, "abc" does not parse), and a matched record whose quantity text does
not parse makes `create_stocks` fail with the int parse error. -/
theorem create_stocks_stock_bucketing :
    stockOf ">10" = some 100 ∧
    stockOf "1" = some 0 ∧
    (∀ q : String, q ≠ ">10" → q ≠ "1" → stockOf q = pythonInt? q) ∧
    pythonInt? "7" = some 7 ∧
    pythonInt? "abc" = none ∧
    (∀ (w : Watch) (ws : List Watch) (ids : List String), w.code ∈ ids →
      matchLoop (w :: ws) ids =
        match stockOf w.quantity with
        | none => .error (String.append "invalid literal for int with base 10: " w.quantity)
        | some st =>
          match matchLoop ws (ids.erase w.code) with
          | .error e => .error e
          | .ok (recs, rem) => .ok (⟨w.code, st⟩ :: recs, rem)) ∧
    (∀ (w : Watch) (ws : List Watch) (ids : List String), w.code ∈ ids →
      stockOf w.quantity = none →
      create_stocks (w :: ws) ids =
        .error (String.append "invalid literal for int with base 10: " w.quantity)) := by
  refine ⟨by decide, by decide, ?_, by decide, by decide, matchLoop_cons_mem, ?_⟩
  · intro q h1 h2
    unfold stockOf
    rw [if_neg h1, if_neg h2]
  · intro w ws ids h hq
    unfold create_stocks
    rw [matchLoop_cons_mem w ws ids h, hq]

/-- Witness for C2 at the quantity text "7". -/
theorem create_stocks_stock_bucketing_witness :
    ("7" : String) ≠ ">10" ∧ ("7" : String) ≠ "1" ∧ stockOf "7" = pythonInt? "7" :=
  ⟨by decide, by decide, create_stocks_stock_bucketing.2.2.1 "7" (by decide) (by decide)⟩

/-- C4 counterexample: with the duplicated offer-id list ["A", "A"] and two
inventory records coded "A", `create_stocks` emits two stock records for
the one identifier "A", so the claim quantified over every offer-id list is
false as stated. -/
theorem create_stocks_duplicate_ids_two_records :
    create_stocks [⟨"A", "5", "p"⟩, ⟨"A", "7", "p"⟩] ["A", "A"] =
      Except.ok ([⟨"A", 5⟩, ⟨"A", 7⟩], []) ∧
    ¬ (([⟨"A", 5⟩, ⟨"A", 7⟩] : List StockRecord).map StockRecord.offer_id).Nodup :=
  ⟨by decide, by decide⟩

/-- C4 (amended): provided the offer-identifier list has no duplicates, the
StockUpdate list of `create_stocks` has pairwise distinct offer ids (hence
at most one record per identifier), holds a stock-0 record for every
identifier matched by no inventory record, and has no record for an
identifier absent from the offer list. -/
theorem create_stocks_offer_invariants (ws : List Watch) (ids : List String)
    (stocks : List StockRecord) (rem : List String) (hnd : ids.Nodup)
    (h : create_stocks ws ids = .ok (stocks, rem)) :
    (stocks.map StockRecord.offer_id).Nodup ∧
    (∀ i ∈ ids, (∀ w ∈ ws, w.code ≠ i) → StockRecord.mk i 0 ∈ stocks) ∧
    (∀ r ∈ stocks, r.offer_id ∈ ids) := by
  obtain ⟨recs, hml, hst⟩ := create_stocks_ok_inversion ws ids stocks rem h
  obtain ⟨hcn, hcm⟩ := matchLoop_codes ws ids recs rem hnd hml
  have hrf := matchLoop_rem_filter ws ids recs rem hnd hml
  have hrsub : rem ⊆ ids := matchLoop_rem_subset ws ids recs rem hml
  have hremnd : rem.Nodup := by
    rw [hrf]
    exact hnd.filter _
  subst hst
  refine ⟨?_, ?_, ?_⟩
  · rw [List.map_append, List.map_map]
    have hid : (StockRecord.offer_id ∘ fun i => StockRecord.mk i 0) = id := rfl
    rw [hid, List.map_id]
    refine List.Nodup.append hcn hremnd ?_
    intro a ha har
    obtain ⟨r, hr, hre⟩ := List.mem_map.mp ha
    rw [← hre] at har
    exact (hcm r hr).2 har
  · intro i hi hno
    have hirem : i ∈ rem := by
      rw [hrf]
      refine List.mem_filter.mpr ⟨hi, ?_⟩
      rw [List.all_eq_true]
      intro w hw
      simp only [bne_iff_ne, ne_eq]
      exact hno w hw
    exact List.mem_append.mpr (Or.inr (List.mem_map.mpr ⟨i, hirem, rfl⟩))
  · intro r hr
    rcases List.mem_append.mp hr with hr | hr
    · exact (hcm r hr).1
    · obtain ⟨i, hi, he⟩ := List.mem_map.mp hr
      rw [← he]
      exact hrsub hi

/-- Witness for the amended C4 theorem: offers {A,B,C}, records for A and
B, so C gets an explicit stock-0 record. -/
theorem create_stocks_offer_invariants_witness :
    (["A", "B", "C"] : List String).Nodup ∧
    StockRecord.mk "C" 0 ∈ ([⟨"A", 10⟩, ⟨"B", 5⟩, ⟨"C", 0⟩] : List StockRecord) := by
  refine ⟨by decide, ?_⟩
  exact (create_stocks_offer_invariants [⟨"A", "10", "x"⟩, ⟨"B", "5", "y"⟩]
    ["A", "B", "C"] [⟨"A", 10⟩, ⟨"B", 5⟩, ⟨"C", 0⟩] ["C"] (by decide) (by decide)).2.1
    "C" (by decide) (by decide)

/-- C9 counterexample: with the duplicated offer-id list ["A", "A"] the
record coded "A" is matched, yet "A" is still in the final offer-id list,
while the set of ids matched by no record is empty — so the final list is
not the set of never-matched identifiers. -/
theorem create_stocks_matched_id_left_behind :
    create_stocks [⟨"A", "5", "p"⟩] ["A", "A"] =
      Except.ok ([⟨"A", 5⟩, ⟨"A", 0⟩], ["A"]) ∧
    (["A", "A"] : List String).filter
      (fun i => ([⟨"A", "5", "p"⟩] : List Watch).all (fun w => w.code != i)) = [] :=
  ⟨by decide, by decide⟩

/-- C9 (amended): provided the offer-identifier list has no duplicates,
after `create_stocks` the (mutated, modeled state-passing) offer-id list is
exactly the original list restricted to identifiers matched by no
inventory record; the inventory list itself is only read. -/
theorem create_stocks_remaining_unmatched (ws : List Watch) (ids : List String)
    (stocks : List StockRecord) (rem : List String) (hnd : ids.Nodup)
    (h : create_stocks ws ids = .ok (stocks, rem)) :
    rem = ids.filter (fun i => ws.all (fun w => w.code != i)) := by
  obtain ⟨recs, hml, _⟩ := create_stocks_ok_inversion ws ids stocks rem h
  exact matchLoop_rem_filter ws ids recs rem hnd hml

/-- Witness for the amended C9 theorem: offers ["E", "F"], one record coded
"E"; the final offer-id list is ["F"]. -/
theorem create_stocks_remaining_unmatched_witness :
    (["E", "F"] : List String).Nodup ∧
    (["F"] : List String) =
      (["E", "F"] : List String).filter
        (fun i => ([⟨"E", "2", "p"⟩] : List Watch).all (fun w => w.code != i)) :=
  ⟨by decide, create_stocks_remaining_unmatched [⟨"E", "2", "p"⟩] ["E", "F"]
      [⟨"E", 2⟩, ⟨"F", 0⟩] ["F"] (by decide) (by decide)⟩

/-- C8 counterexample: the quantity text "-5" integer-parses, so
`create_stocks` succeeds and emits the negative stock value -5. -/
theorem create_stocks_negative_stock :
    create_stocks [⟨"A", "-5", "p"⟩] ["A"] = Except.ok ([⟨"A", -5⟩], []) ∧
    (-5 : Int) < 0 :=
  ⟨by decide, by decide⟩

/-- C8 (amended): every record of a successful `create_stocks` has a string
offer id (by construction) and an integer stock; the stock is nonnegative
provided no inventory record has a quantity text that parses to a negative
integer. -/
theorem create_stocks_stock_nonneg (ws : List Watch) (ids : List String)
    (stocks : List StockRecord) (rem : List String)
    (hq : ∀ w ∈ ws, ∀ k : Int, pythonInt? w.quantity = some k → 0 ≤ k)
    (h : create_stocks ws ids = .ok (stocks, rem)) :
    ∀ r ∈ stocks, 0 ≤ r.stock := by
  obtain ⟨recs, hml, hst⟩ := create_stocks_ok_inversion ws ids stocks rem h
  subst hst
  intro r hr
  rcases List.mem_append.mp hr with hr | hr
  · obtain ⟨w, hw, hsw, _⟩ := matchLoop_stock_from ws ids recs rem hml r hr
    unfold stockOf at hsw
    by_cases h1 : w.quantity = ">10"
    · rw [if_pos h1] at hsw
      injection hsw with hv
      omega
    · rw [if_neg h1] at hsw
      by_cases h2 : w.quantity = "1"
      · rw [if_pos h2] at hsw
        injection hsw with hv
        omega
      · rw [if_neg h2] at hsw
        exact hq w hw r.stock hsw
  · obtain ⟨i, _, he⟩ := List.mem_map.mp hr
    rw [← he]

/-- Witness for the amended C8 theorem: one record with quantity "3". -/
theorem create_stocks_stock_nonneg_witness :
    (0 : Int) ≤ (StockRecord.mk "D" 3).stock := by
  refine (create_stocks_stock_nonneg [⟨"D", "3", "p"⟩] ["D"] [⟨"D", 3⟩] []
    ?_ (by decide)) ⟨"D", 3⟩ (by decide)
  intro w hw k hk
  have hw2 : w = ⟨"D", "3", "p"⟩ := by simpa using hw
  subst hw2
  have h3 : pythonInt? "3" = some 3 := by decide
  rw [h3] at hk
  injection hk with hk2
  omega

/-- The items accumulated over one more page split off the head page. -/
theorem accumItems_take_succ (p : Page) (ps : List Page) (m : Nat) :
    accumItems ((p :: ps).take (m + 1)) = p.items ++ accumItems (ps.take m) := by
  simp [accumItems, List.take_succ_cons]

/-- The accumulation loop of `get_offer_ids`, generalized over the already
accumulated items: if the reported total first matches the accumulated
count at page `k`, the loop returns everything accumulated through `k`. -/
theorem getOfferIdsGo_spec :
    ∀ (pages : List Page) (acc : List String) (k : Nat), k < pages.length →
      (∀ j, j < k → (pages.getD j ⟨[], 0⟩).total ≠
        acc.length + (accumItems (pages.take (j + 1))).length) →
      ((pages.getD k ⟨[], 0⟩).total =
        acc.length + (accumItems (pages.take (k + 1))).length) →
      getOfferIdsGo pages acc = some (acc ++ accumItems (pages.take (k + 1))) := by
  intro pages
  induction pages with
  | nil =>
    intro acc k hk
    simp at hk
  | cons p ps ih =>
    intro acc k hk hmin hstop
    match k with
    | 0 =>
      rw [List.getD_cons_zero] at hstop
      rw [accumItems_take_succ] at hstop ⊢
      simp only [List.take_zero] at hstop ⊢
      have hacc0 : accumItems ([] : List Page) = [] := rfl
      rw [hacc0, List.append_nil] at hstop ⊢
      show getOfferIdsGo (p :: ps) acc = _
      simp only [getOfferIdsGo]
      rw [if_pos (by rw [List.length_append]; omega)]
    | j + 1 =>
      have hk2 : j < ps.length := by
        simp only [List.length_cons] at hk
        omega
      have h0 := hmin 0 (Nat.succ_pos j)
      rw [List.getD_cons_zero, accumItems_take_succ] at h0
      simp only [List.take_zero] at h0
      have hacc0 : accumItems ([] : List Page) = [] := rfl
      rw [hacc0, List.append_nil] at h0
      show getOfferIdsGo (p :: ps) acc = _
      simp only [getOfferIdsGo]
      rw [if_neg (by rw [List.length_append]; omega)]
      rw [accumItems_take_succ, ← List.append_assoc]
      refine ih (acc ++ p.items) j hk2 ?_ ?_
      · intro i hi
        have hne := hmin (i + 1) (Nat.succ_lt_succ hi)
        rw [List.getD_cons_succ, accumItems_take_succ] at hne
        simp only [List.length_append] at hne ⊢
        omega
      · have heq := hstop
        rw [List.getD_cons_succ, accumItems_take_succ] at heq
        simp only [List.length_append] at heq ⊢
        omega

/-- C5: for every page sequence whose accumulated item count eventually
equals the total reported with a page, `get_offer_ids` stops exactly at the
first such page and returns the offer ids of all items accumulated up to
and including it. -/
theorem get_offer_ids_pagination (pages : List Page) (k : Nat)
    (hk : k < pages.length)
    (hmin : ∀ j, j < k → (pages.getD j ⟨[], 0⟩).total ≠
      (accumItems (pages.take (j + 1))).length)
    (hstop : (pages.getD k ⟨[], 0⟩).total =
      (accumItems (pages.take (k + 1))).length) :
    get_offer_ids pages = some (accumItems (pages.take (k + 1))) := by
  unfold get_offer_ids
  have h := getOfferIdsGo_spec pages [] k hk ?_ ?_
  · simpa using h
  · intro j hj
    simpa using hmin j hj
  · simpa using hstop

/-- Witness for C5: two pages of sizes 1 and 1 with reported total 2; the
loop stops after the second page. -/
theorem get_offer_ids_pagination_witness :
    get_offer_ids [⟨["a"], 2⟩, ⟨["b"], 2⟩] = some ["a", "b"] := by
  have h := get_offer_ids_pagination [⟨["a"], 2⟩, ⟨["b"], 2⟩] 1 (by decide) ?_ ?_
  · simpa [accumItems] using h
  · intro j hj
    have hj0 : j = 0 := by omega
    subst hj0
    decide
  · decide

/-- C10: `upload_stocks` returns the pair (not_empty, stocks) where stocks
is the full StockUpdate list built from the freshly fetched offer ids and
not_empty is exactly the sublist of stocks with nonzero stock, in the same
relative order. -/
theorem upload_stocks_pair (pages : List Page) (ws : List Watch)
    (ids : List String) (stocks : List StockRecord) (rem : List String)
    (hp : get_offer_ids pages = some ids)
    (hc : create_stocks ws ids = .ok (stocks, rem)) :
    upload_stocks pages ws =
      some (.ok (stocks.filter (fun s => s.stock != 0), stocks)) ∧
    (stocks.filter (fun s => s.stock != 0)).Sublist stocks ∧
    (∀ r ∈ stocks.filter (fun s => s.stock != 0), r.stock ≠ 0) ∧
    (∀ r ∈ stocks, r.stock ≠ 0 → r ∈ stocks.filter (fun s => s.stock != 0)) := by
  refine ⟨?_, List.filter_sublist _, ?_, ?_⟩
  · unfold upload_stocks
    rw [hp, Option.map_some', hc]
  · intro r hr
    have := (List.mem_filter.mp hr).2
    simpa using this
  · intro r hr hz
    refine List.mem_filter.mpr ⟨hr, ?_⟩
    simpa using hz

/-- Witness for C10: one page with one offer and no inventory record; the
stock list is the zero-fill record and not_empty is empty. -/
theorem upload_stocks_pair_witness :
    upload_stocks [⟨["G"], 1⟩] [] = some (Except.ok ([], [⟨"G", 0⟩])) := by
  have h := (upload_stocks_pair [⟨["G"], 1⟩] [] ["G"] [⟨"G", 0⟩] ["G"]
    (by decide) (by decide)).1
  have e : ([⟨"G", 0⟩] : List StockRecord).filter (fun s => s.stock != 0) = [] := rfl
  rw [e] at h
  exact h

/-- C1: on the end-to-end scenario of the spec (catalog offers X1, X2, X3
over two pages; inventory records for X1 and X2), `main` builds the
expected StockUpdate list but an EMPTY PriceUpdate list, because
`create_prices` receives the offer-id list already depleted in place by
`create_stocks`; the same `create_prices` applied to the original offer-id
set would produce the two expected price records. -/
theorem main_price_list_empty :
    mainRun [⟨["X1", "X2"], 3⟩, ⟨["X3"], 3⟩]
        [⟨"X1", ">10", "100.50 руб"⟩, ⟨"X2", "1", "200 руб"⟩] =
      some (.ok ([⟨"X1", 100⟩, ⟨"X2", 0⟩, ⟨"X3", 0⟩], [])) ∧
    create_prices [⟨"X1", ">10", "100.50 руб"⟩, ⟨"X2", "1", "200 руб"⟩]
        ["X1", "X2", "X3"] =
      [⟨"UNKNOWN", "RUB", "X1", "0", "100"⟩, ⟨"UNKNOWN", "RUB", "X2", "0", "200"⟩] ∧
    ([] : List PriceRecord) ≠
      [⟨"UNKNOWN", "RUB", "X1", "0", "100"⟩, ⟨"UNKNOWN", "RUB", "X2", "0", "200"⟩] :=
  ⟨by decide, by decide, by decide⟩

end Seller
